import Mathlib

/-!
Verification of the synchronization primitives in `src/sync.rs`
(SpinLock, Ready, OnceCell) of the OsirisRTOS/cortex-m repository.

The Rust code is embedded shallowly:

* Atomic cells become explicit state passed through pure functions.
  `AtomicBool` is a `Bool`, `AtomicU8` is a `Nat` kept below 256 with
  explicit `% 256` where u8 overflow matters.
* Each Rust method becomes a function from the old state to its return
  value paired with the new state.
* The `MaybeUninit<T>` slot of `OnceCell` becomes an `Option T`:
  `none` is the uninitialized state; reading it through
  `get_unchecked` yields the `Option` directly (a `none` result marks
  a read that the Rust code would only reach through undefined
  behavior; we prove such reads do not occur on the paths taken).
* The `unreachable!()` branch of `OnceCell::set` becomes a dedicated
  `abort` result constructor, distinct from every normal return.
* For the concurrency claims an interleaving semantics is given:
  each thread executes the atomic operations of one `set(v)` call as
  separate small steps, and a step relation picks one thread at a
  time.

This file targets the `atomic-cas` configuration of the crate (the
single-core interrupt-masking fallback has no shared state to model).
-/

namespace CortexMSync

/-! ### SpinLock (src/sync.rs lines 17-90, `atomic-cas` configuration)

State is the single `AtomicBool` `lock`; `false` = unlocked. -/

namespace SpinLock

/-- Rust `SpinLock::new`: the lock starts unlocked. -/
def new : Bool := false

/-- Rust `SpinLock::try_lock` (atomic-cas): one `swap(true, Acquire)`;
the return value is the negation of the previous value, the new lock
state is `true`. -/
def tryLock (l : Bool) : Bool × Bool := (!l, true)

/-- Rust `SpinLock::unlock` (atomic-cas): `store(false, Release)`. -/
def unlock (_l : Bool) : Bool := false

end SpinLock

/-! ### Ready (src/sync.rs lines 92-131)

State is the single `AtomicU8` `ready`, as a `Nat`.
`compare_exchange(from, to, AcqRel, Acquire)` leaves the state
unchanged on failure. -/

namespace Ready

def READY : Nat := 2
def IN_TRANSIT : Nat := 1
def NOT_READY : Nat := 0

/-- Rust `Ready::new`: constructed in state 0 (`NOT_READY`). -/
def new : Nat := 0

/-- Wrapping u8 addition, the arithmetic performed by `from + 1` in
`Ready::step` (u8 semantics: the sum is reduced modulo 2^8). -/
def u8Add (a b : Nat) : Nat := (a + b) % 256

/-- Holds when `a + b` does not fit in a u8, i.e. the addition overflows. -/
def u8AddOverflows (a b : Nat) : Prop := a + b ≥ 256

/-- Rust `Ready::forward`: `compare_exchange(_from, _to, AcqRel, Acquire)`,
returning whether it succeeded together with the new state. -/
def forward (f t s : Nat) : Bool × Nat := if s = f then (true, t) else (false, s)

/-- Rust `Ready::step`: `forward(from, from + 1)` with u8 arithmetic on
`from + 1`. -/
def step (frm s : Nat) : Bool × Nat := forward frm (u8Add frm 1) s

/-- Rust `Ready::is`: `load(Acquire) == READY`. -/
def is (s : Nat) : Bool := s == READY

/-- Running a sequence of `step` calls (given by the list of their
`from` arguments) from state `s`, keeping only the final state. -/
def runSteps (ops : List Nat) (s : Nat) : Nat :=
  ops.foldl (fun st frm => (step frm st).2) s

/-- Running `k` repeated `step frm` calls from state `s`, collecting
the list of boolean results and the final state. -/
def stepsTrace (frm : Nat) : Nat → Nat → List Bool × Nat
  | 0, s => ([], s)
  | k + 1, s =>
    let r := step frm s
    let rest := stepsTrace frm k r.2
    (r.1 :: rest.1, rest.2)

end Ready

/-! ### OnceCell (src/sync.rs lines 133-225), sequential semantics -/

/-- The state of an `OnceCell<T>`: the `UnsafeCell<MaybeUninit<T>>`
slot (`none` = uninitialized) and the owned `Ready` flag. -/
structure CellState (T : Type) where
  value : Option T
  init : Nat
deriving DecidableEq, Repr

/-- Result of `OnceCell::set`: a normal return (`Option<&T>` together
with the state the cell is left in), or the `unreachable!()` abort. -/
inductive SetResult (T : Type) where
  | ret (r : Option T) (s : CellState T)
  | abort
deriving DecidableEq, Repr

/-- Result of `OnceCell::set_or_get`: a normal return of the
reference read from the slot (as an `Option`, `none` marking a read
of an uninitialized slot) with the final state, the unbounded
busy-wait loop (`spin`), or an abort propagated from `set`. -/
inductive SogResult (T : Type) where
  | ret (r : Option T) (s : CellState T)
  | spin
  | abort
deriving DecidableEq, Repr

namespace OnceCell

/-- Rust `OnceCell::new`: uninitialized slot, fresh `Ready`. -/
def new (T : Type) : CellState T := ⟨none, Ready.new⟩

/-- Rust `OnceCell::get_unchecked`: reads the slot, assuming it
initialized; a `none` result marks the undefined-behavior read. -/
def getUnchecked (c : CellState T) : Option T := c.value

/-- Rust `OnceCell::get`: `Some(get_unchecked())` if `init.is()`, else
`None`. -/
def get (c : CellState T) : Option T :=
  if Ready.is c.init then getUnchecked c else none

/-- Rust `OnceCell::set` (src/sync.rs lines 191-215). -/
def set (v : T) (c : CellState T) : SetResult T :=
  if Ready.is c.init then .ret none c
  else
    let r1 := Ready.step Ready.NOT_READY c.init
    if r1.1 then
      let c1 : CellState T := ⟨some v, r1.2⟩
      let r2 := Ready.step Ready.IN_TRANSIT c1.init
      if r2.1 then .ret (getUnchecked c1) ⟨c1.value, r2.2⟩
      else .abort
    else .ret none ⟨c.value, r1.2⟩

/-- Rust `OnceCell::set_or_get` (src/sync.rs lines 167-180): returns the
reference produced by `set` when there is one; otherwise busy-waits
on `is()` — in this sequential semantics the state cannot change
under the caller, so a false `is()` means the loop spins forever. -/
def setOrGet (v : T) (c : CellState T) : SogResult T :=
  match set v c with
  | .abort => .abort
  | .ret (some r) s => .ret (some r) s
  | .ret none s => if Ready.is s.init then .ret (getUnchecked s) s else .spin

/-- Rust `OnceCell::do_or_get` (src/sync.rs lines 183-188): literally
`set_or_get(f())`. -/
def doOrGet (f : Unit → T) (c : CellState T) : SogResult T :=
  setOrGet (f ()) c

/-- Variant of `do_or_get` with an explicitly effectful closure `f`, modelled in
a state monad over `σ`: `f` is forced exactly once, before the cell
is touched, and its effect on `σ` happens whether or not the caller
wins the race. -/
def doOrGetEff (f : σ → T × σ) (st : σ) (c : CellState T) : SogResult T × σ :=
  let r := f st
  (setOrGet r.1 c, r.2)

end OnceCell

/-! ### Concurrent semantics of `OnceCell::set`

Each thread executes one `set(v)` call, decomposed into its atomic
accesses to the shared cell: the `is()` load, the
`compare_exchange(NOT_READY, ...)`, the (exclusive) slot write, and
the `compare_exchange(IN_TRANSIT, ...)`.  A configuration is the
shared `CellState` plus the list of thread states; the step relation
runs one atomic access of one thread. -/

/-- Program counter of a thread running `OnceCell::set`. -/
inductive Phase where
  | start      -- about to execute the `is()` load
  | cas1       -- about to execute `step(NOT_READY)`
  | write      -- won the race; about to write the slot
  | finish2    -- wrote the slot; about to execute `step(IN_TRANSIT)`
  | doneSome   -- returned `Some(&value)`
  | doneNone   -- returned `None`
  | aborted    -- hit the `unreachable!()` branch
deriving DecidableEq, Repr

/-- A thread: its program counter and the value its `set` call
carries. -/
structure Thr (T : Type) where
  phase : Phase
  val : T
deriving DecidableEq, Repr

/-- One atomic access of a thread running `OnceCell::set` against the
shared cell, following src/sync.rs lines 191-215.  Finished threads
take stuttering steps. -/
def threadStep (sh : CellState T) (t : Thr T) : CellState T × Thr T :=
  match t.phase with
  | .start => (sh, { t with phase := if Ready.is sh.init then .doneNone else .cas1 })
  | .cas1 =>
    let r := Ready.step Ready.NOT_READY sh.init
    if r.1 then ({ sh with init := r.2 }, { t with phase := .write })
    else ({ sh with init := r.2 }, { t with phase := .doneNone })
  | .write => ({ sh with value := some t.val }, { t with phase := .finish2 })
  | .finish2 =>
    let r := Ready.step Ready.IN_TRANSIT sh.init
    if r.1 then ({ sh with init := r.2 }, { t with phase := .doneSome })
    else ({ sh with init := r.2 }, { t with phase := .aborted })
  | _ => (sh, t)

/-- A configuration: the shared cell and the threads. -/
def Config (T : Type) : Type := CellState T × List (Thr T)

/-- Interleaving step: some thread performs its next atomic access. -/
inductive Step : Config T → Config T → Prop where
  | here {sh sh' : CellState T} {t t' : Thr T} {ts : List (Thr T)} :
      threadStep sh t = (sh', t') → Step (sh, t :: ts) (sh', t' :: ts)
  | there {sh sh' : CellState T} {t : Thr T} {ts ts' : List (Thr T)} :
      Step (sh, ts) (sh', ts') → Step (sh, t :: ts) (sh', t :: ts')

/-- The initial configuration for a family of concurrent `set` calls
with the supplied values `vs`, on a fresh cell. -/
def initialConfig (vs : List T) : Config T :=
  (OnceCell.new T, vs.map fun v => ⟨.start, v⟩)

/-- A configuration reachable by interleaving the `set(v)` calls with
values `vs` on a fresh cell. -/
def Reachable (vs : List T) (c : Config T) : Prop :=
  Relation.ReflTransGen Step (initialConfig vs) c

/-- Thread is in the exclusive transit window (owns the slot). -/
def isOwner (t : Thr T) : Bool :=
  match t.phase with
  | .write => true
  | .finish2 => true
  | _ => false

/-- Thread has returned `Some` (performed the initialization). -/
def isWinner (t : Thr T) : Bool :=
  match t.phase with
  | .doneSome => true
  | _ => false

/-- Thread has not yet touched the `Ready` flag decisively. -/
def isPending (t : Thr T) : Bool :=
  match t.phase with
  | .start => true
  | .cas1 => true
  | _ => false

/-- Thread has returned (either `Some` or `None`). -/
def isDone (t : Thr T) : Bool :=
  match t.phase with
  | .doneSome => true
  | .doneNone => true
  | _ => false

/-- The inductive invariant of the concurrent `set` protocol, indexed
by the shared `Ready` state. -/
def Inv (sh : CellState T) (ts : List (Thr T)) : Prop :=
  (sh.init = 0 ∧ sh.value = none ∧ ∀ t ∈ ts, isPending t = true) ∨
  (sh.init = 1 ∧ ts.countP isOwner = 1 ∧
    (∀ t ∈ ts, isWinner t = false ∧ t.phase ≠ .aborted) ∧
    (∀ t ∈ ts, t.phase = .finish2 → sh.value = some t.val) ∧
    (∀ t ∈ ts, t.phase = .write → sh.value = none)) ∨
  (sh.init = 2 ∧ ts.countP isOwner = 0 ∧ ts.countP isWinner = 1 ∧
    (∀ t ∈ ts, t.phase ≠ .aborted) ∧
    (∀ t ∈ ts, isWinner t = true → sh.value = some t.val))

/-! ### Lemmas about the concurrent semantics -/

lemma pending_phase {u : Thr T} (h : isPending u = true) :
    u.phase = .start ∨ u.phase = .cas1 := by
  cases hp : u.phase <;> simp_all [isPending]

lemma not_owner_of_pending {u : Thr T} (h : isPending u = true) :
    isOwner u = false := by
  cases hp : u.phase <;> simp_all [isPending, isOwner]

lemma not_winner_of_pending {u : Thr T} (h : isPending u = true) :
    isWinner u = false := by
  cases hp : u.phase <;> simp_all [isPending, isWinner]

lemma not_aborted_of_pending {u : Thr T} (h : isPending u = true) :
    u.phase ≠ .aborted := by
  cases hp : u.phase <;> simp_all [isPending]

lemma owner_phase {u : Thr T} (h : isOwner u = true) :
    u.phase = .write ∨ u.phase = .finish2 := by
  cases hp : u.phase <;> simp_all [isOwner]

lemma winner_phase {u : Thr T} (h : isWinner u = true) :
    u.phase = .doneSome := by
  cases hp : u.phase <;> simp_all [isWinner]

/-- A thread step never changes the value the thread carries. -/
lemma threadStep_val (sh : CellState T) (t : Thr T) :
    ((threadStep sh t).2).val = t.val := by
  cases hp : t.phase <;> simp [threadStep, hp] <;> split <;> rfl

/-- Any interleaving step is the step of one thread: the thread list
splits around the acting thread, which is replaced by its successor
state while the rest is untouched. -/
lemma step_decomp {c c' : Config T} (h : Step c c') :
    ∃ pre t post, c.2 = pre ++ t :: post ∧
      c'.1 = (threadStep c.1 t).1 ∧
      c'.2 = pre ++ (threadStep c.1 t).2 :: post := by
  induction h with
  | here heq => exact ⟨[], _, _, rfl, by simp [heq], by simp [heq]⟩
  | @there sh sh' thr ts ts' h ih =>
    obtain ⟨pre, t, post, h1, h2, h3⟩ := ih
    exact ⟨thr :: pre, t, post, by simp_all, h2, by simp_all⟩

/-- Interleaving steps preserve the multiset of supplied values. -/
lemma step_vals {c c' : Config T} (h : Step c c') :
    c'.2.map Thr.val = c.2.map Thr.val := by
  obtain ⟨pre, t, post, h1, _, h3⟩ := step_decomp h
  simp [h1, h3, threadStep_val]

lemma countP_split (p : Thr T → Bool) (pre post : List (Thr T)) (t : Thr T) :
    (pre ++ t :: post).countP p =
      pre.countP p + post.countP p + (if p t then 1 else 0) := by
  rw [List.countP_append, List.countP_cons]
  omega

lemma forall_mem_split {P : Thr T → Prop} {pre post : List (Thr T)} {t : Thr T} :
    (∀ x ∈ pre ++ t :: post, P x) ↔
      (∀ x ∈ pre, P x) ∧ P t ∧ (∀ x ∈ post, P x) := by
  rw [List.forall_mem_append, List.forall_mem_cons]

/-- The invariant is preserved by every interleaving step. -/
lemma inv_preserved {c c' : Config T} (hinv : Inv c.1 c.2) (h : Step c c') :
    Inv c'.1 c'.2 := by
  obtain ⟨pre, t, post, hts, hsh, hts'⟩ := step_decomp h
  rw [hsh, hts']
  rw [hts] at hinv
  clear hsh hts' hts h
  obtain ⟨tp, tv⟩ := t
  cases tp
  case doneSome =>
    have hTS : threadStep c.1 ⟨Phase.doneSome, tv⟩ = (c.1, ⟨Phase.doneSome, tv⟩) := by
      simp [threadStep]
    rw [hTS]; exact hinv
  case doneNone =>
    have hTS : threadStep c.1 ⟨Phase.doneNone, tv⟩ = (c.1, ⟨Phase.doneNone, tv⟩) := by
      simp [threadStep]
    rw [hTS]; exact hinv
  case aborted =>
    have hTS : threadStep c.1 ⟨Phase.aborted, tv⟩ = (c.1, ⟨Phase.aborted, tv⟩) := by
      simp [threadStep]
    rw [hTS]; exact hinv
  case start =>
    rcases hinv with ⟨h0, hv, hp⟩ | ⟨h1, hown, hnwa, hf2, hwr⟩ |
      ⟨h2, hown, hwin, hnab, hwv⟩
    · -- init = 0: the is() load fails, the thread moves to the CAS
      have hTS : threadStep c.1 ⟨Phase.start, tv⟩ = (c.1, ⟨Phase.cas1, tv⟩) := by
        simp [threadStep, Ready.is, Ready.READY, h0]
      rw [hTS]
      rw [forall_mem_split] at hp
      exact Or.inl ⟨h0, hv, forall_mem_split.mpr ⟨hp.1, rfl, hp.2.2⟩⟩
    · -- init = 1: the is() load fails, the thread moves to the CAS
      have hTS : threadStep c.1 ⟨Phase.start, tv⟩ = (c.1, ⟨Phase.cas1, tv⟩) := by
        simp [threadStep, Ready.is, Ready.READY, h1]
      rw [hTS]
      rw [countP_split] at hown
      rw [forall_mem_split] at hnwa hf2 hwr
      refine Or.inr (Or.inl ⟨h1, ?_, ?_, ?_, ?_⟩)
      · rw [countP_split]; simpa [isOwner] using hown
      · exact forall_mem_split.mpr
          ⟨hnwa.1, ⟨by simp [isWinner], by simp⟩, hnwa.2.2⟩
      · exact forall_mem_split.mpr ⟨hf2.1, by simp, hf2.2.2⟩
      · exact forall_mem_split.mpr ⟨hwr.1, by simp, hwr.2.2⟩
    · -- init = 2: the is() load succeeds, the thread returns None
      have hTS : threadStep c.1 ⟨Phase.start, tv⟩ = (c.1, ⟨Phase.doneNone, tv⟩) := by
        simp [threadStep, Ready.is, Ready.READY, h2]
      rw [hTS]
      rw [countP_split] at hown hwin
      rw [forall_mem_split] at hnab hwv
      refine Or.inr (Or.inr ⟨h2, ?_, ?_, ?_, ?_⟩)
      · rw [countP_split]; simpa [isOwner] using hown
      · rw [countP_split]; simpa [isWinner] using hwin
      · exact forall_mem_split.mpr ⟨hnab.1, by simp, hnab.2.2⟩
      · exact forall_mem_split.mpr ⟨hwv.1, by simp [isWinner], hwv.2.2⟩
  case cas1 =>
    rcases hinv with ⟨h0, hv, hp⟩ | ⟨h1, hown, hnwa, hf2, hwr⟩ |
      ⟨h2, hown, hwin, hnab, hwv⟩
    · -- init = 0: the CAS wins, the thread owns the transit window
      have hTS : threadStep c.1 ⟨Phase.cas1, tv⟩ =
          (⟨c.1.value, 1⟩, ⟨Phase.write, tv⟩) := by
        simp [threadStep, Ready.step, Ready.forward, Ready.u8Add, Ready.NOT_READY, h0]
      rw [hTS]
      rw [forall_mem_split] at hp
      have epre : pre.countP isOwner = 0 :=
        List.countP_eq_zero.mpr fun u hu => by
          simp [not_owner_of_pending (hp.1 u hu)]
      have epost : post.countP isOwner = 0 :=
        List.countP_eq_zero.mpr fun u hu => by
          simp [not_owner_of_pending (hp.2.2 u hu)]
      refine Or.inr (Or.inl ⟨rfl, ?_, ?_, ?_, ?_⟩)
      · rw [countP_split]; simp [isOwner, epre, epost]
      · refine forall_mem_split.mpr
          ⟨fun u hu => ⟨not_winner_of_pending (hp.1 u hu),
            not_aborted_of_pending (hp.1 u hu)⟩,
           ⟨by simp [isWinner], by simp⟩,
           fun u hu => ⟨not_winner_of_pending (hp.2.2 u hu),
            not_aborted_of_pending (hp.2.2 u hu)⟩⟩
      · refine forall_mem_split.mpr ⟨fun u hu hf => ?_, by simp, fun u hu hf => ?_⟩
        · rcases pending_phase (hp.1 u hu) with h | h <;> simp [h] at hf
        · rcases pending_phase (hp.2.2 u hu) with h | h <;> simp [h] at hf
      · exact forall_mem_split.mpr ⟨fun u _ _ => hv, fun _ => hv, fun u _ _ => hv⟩
    · -- init = 1: the CAS fails, the thread returns None
      have hTS : threadStep c.1 ⟨Phase.cas1, tv⟩ =
          (⟨c.1.value, 1⟩, ⟨Phase.doneNone, tv⟩) := by
        simp [threadStep, Ready.step, Ready.forward, Ready.u8Add, Ready.NOT_READY, h1]
      rw [hTS]
      rw [countP_split] at hown
      rw [forall_mem_split] at hnwa hf2 hwr
      refine Or.inr (Or.inl ⟨rfl, ?_, ?_, ?_, ?_⟩)
      · rw [countP_split]; simpa [isOwner] using hown
      · exact forall_mem_split.mpr
          ⟨hnwa.1, ⟨by simp [isWinner], by simp⟩, hnwa.2.2⟩
      · exact forall_mem_split.mpr ⟨hf2.1, by simp, hf2.2.2⟩
      · exact forall_mem_split.mpr ⟨hwr.1, by simp, hwr.2.2⟩
    · -- init = 2: the CAS fails, the thread returns None
      have hTS : threadStep c.1 ⟨Phase.cas1, tv⟩ =
          (⟨c.1.value, 2⟩, ⟨Phase.doneNone, tv⟩) := by
        simp [threadStep, Ready.step, Ready.forward, Ready.u8Add, Ready.NOT_READY, h2]
      rw [hTS]
      rw [countP_split] at hown hwin
      rw [forall_mem_split] at hnab hwv
      refine Or.inr (Or.inr ⟨rfl, ?_, ?_, ?_, ?_⟩)
      · rw [countP_split]; simpa [isOwner] using hown
      · rw [countP_split]; simpa [isWinner] using hwin
      · exact forall_mem_split.mpr ⟨hnab.1, by simp, hnab.2.2⟩
      · exact forall_mem_split.mpr ⟨hwv.1, by simp [isWinner], hwv.2.2⟩
  case write =>
    rcases hinv with ⟨h0, hv, hp⟩ | ⟨h1, hown, hnwa, hf2, hwr⟩ |
      ⟨h2, hown, hwin, hnab, hwv⟩
    · -- init = 0: impossible, every thread is still pending
      rw [forall_mem_split] at hp
      simp [isPending] at hp
    · -- init = 1: the unique owner writes the slot
      have hTS : threadStep c.1 ⟨Phase.write, tv⟩ =
          (⟨some tv, c.1.init⟩, ⟨Phase.finish2, tv⟩) := by
        simp [threadStep]
      rw [hTS]
      rw [countP_split] at hown
      rw [forall_mem_split] at hnwa hf2 hwr
      rw [show (if isOwner (⟨Phase.write, tv⟩ : Thr T) then 1 else 0) = 1 from rfl] at hown
      have epre : pre.countP isOwner = 0 := by omega
      have epost : post.countP isOwner = 0 := by omega
      have hpre_no : ∀ u ∈ pre, isOwner u = false := fun u hu => by
        have := List.countP_eq_zero.mp epre u hu; simpa using this
      have hpost_no : ∀ u ∈ post, isOwner u = false := fun u hu => by
        have := List.countP_eq_zero.mp epost u hu; simpa using this
      refine Or.inr (Or.inl ⟨h1, ?_, ?_, ?_, ?_⟩)
      · rw [countP_split]; simp [isOwner, epre, epost]
      · exact forall_mem_split.mpr
          ⟨hnwa.1, ⟨by simp [isWinner], by simp⟩, hnwa.2.2⟩
      · refine forall_mem_split.mpr ⟨fun u hu hf => ?_, fun _ => rfl, fun u hu hf => ?_⟩
        · have := hpre_no u hu; simp [isOwner, hf] at this
        · have := hpost_no u hu; simp [isOwner, hf] at this
      · refine forall_mem_split.mpr ⟨fun u hu hf => ?_, by simp, fun u hu hf => ?_⟩
        · have := hpre_no u hu; simp [isOwner, hf] at this
        · have := hpost_no u hu; simp [isOwner, hf] at this
    · -- init = 2: impossible, there is no owner left
      rw [countP_split] at hown
      simp [isOwner] at hown
  case finish2 =>
    rcases hinv with ⟨h0, hv, hp⟩ | ⟨h1, hown, hnwa, hf2, hwr⟩ |
      ⟨h2, hown, hwin, hnab, hwv⟩
    · -- init = 0: impossible, every thread is still pending
      rw [forall_mem_split] at hp
      simp [isPending] at hp
    · -- init = 1: the owner publishes; the CAS succeeds
      have hTS : threadStep c.1 ⟨Phase.finish2, tv⟩ =
          (⟨c.1.value, 2⟩, ⟨Phase.doneSome, tv⟩) := by
        simp [threadStep, Ready.step, Ready.forward, Ready.u8Add, Ready.IN_TRANSIT, h1]
      rw [hTS]
      rw [countP_split] at hown
      rw [forall_mem_split] at hnwa hf2 hwr
      rw [show (if isOwner (⟨Phase.finish2, tv⟩ : Thr T) then 1 else 0) = 1 from rfl] at hown
      have epre : pre.countP isOwner = 0 := by omega
      have epost : post.countP isOwner = 0 := by omega
      have hval : c.1.value = some tv := hf2.2.1 rfl
      refine Or.inr (Or.inr ⟨rfl, ?_, ?_, ?_, ?_⟩)
      · rw [countP_split]; simp [isOwner, epre, epost]
      · rw [countP_split]
        have wpre : pre.countP isWinner = 0 :=
          List.countP_eq_zero.mpr fun u hu => by simp [(hnwa.1 u hu).1]
        have wpost : post.countP isWinner = 0 :=
          List.countP_eq_zero.mpr fun u hu => by simp [(hnwa.2.2 u hu).1]
        simp [isWinner, wpre, wpost]
      · exact forall_mem_split.mpr
          ⟨fun u hu => (hnwa.1 u hu).2, by simp, fun u hu => (hnwa.2.2 u hu).2⟩
      · refine forall_mem_split.mpr ⟨fun u hu hw => ?_, fun _ => hval, fun u hu hw => ?_⟩
        · have := (hnwa.1 u hu).1; rw [hw] at this; cases this
        · have := (hnwa.2.2 u hu).1; rw [hw] at this; cases this
    · -- init = 2: impossible, there is no owner left
      rw [countP_split] at hown
      simp [isOwner] at hown

/-- Every reachable configuration satisfies the invariant, and the
threads still carry exactly the supplied values. -/
lemma reachable_inv {vs : List T} {c : Config T} (h : Reachable vs c) :
    Inv c.1 c.2 ∧ c.2.map Thr.val = vs := by
  induction h with
  | refl =>
    constructor
    · exact Or.inl ⟨rfl, rfl, by
        intro t ht
        simp [initialConfig, List.mem_map] at ht
        obtain ⟨v, _, rfl⟩ := ht
        rfl⟩
    · show List.map Thr.val (vs.map fun v => (⟨Phase.start, v⟩ : Thr T)) = vs
      induction vs with
      | nil => rfl
      | cons a l ih => simpa using ih
  | tail hpre hstep ih =>
    exact ⟨inv_preserved ih.1 hstep, by rw [step_vals hstep, ih.2]⟩

lemma not_done_of_pending {u : Thr T} (h : isPending u = true) :
    isDone u = false := by
  cases hp : u.phase <;> simp_all [isPending, isDone]

lemma not_done_of_owner {u : Thr T} (h : isOwner u = true) :
    isDone u = false := by
  cases hp : u.phase <;> simp_all [isOwner, isDone]

lemma exists_mem_of_countP_pos {p : Thr T → Bool} {ts : List (Thr T)}
    (h : ts.countP p ≠ 0) : ∃ u ∈ ts, p u = true := by
  by_contra hc
  push_neg at hc
  exact h (List.countP_eq_zero.mpr fun u hu => by simp [hc u hu])

/-! ### Lemmas about repeated `Ready.step` calls -/

lemma stepsTrace_fail {frm s : Nat} (h : s ≠ frm) (k : Nat) :
    Ready.stepsTrace frm k s = (List.replicate k false, s) := by
  induction k with
  | zero => simp [Ready.stepsTrace]
  | succ k ih =>
    simp [Ready.stepsTrace, Ready.step, Ready.forward, h, ih, List.replicate_succ]

lemma runSteps_mono {s : Nat} (hs : s ≤ 2) (ops : List Nat)
    (hops : ∀ f ∈ ops, f ≠ Ready.READY) :
    s ≤ Ready.runSteps ops s ∧ Ready.runSteps ops s ≤ 2 := by
  induction ops generalizing s with
  | nil => exact ⟨Nat.le_refl s, hs⟩
  | cons f rest ih =>
    have hf : f ≠ Ready.READY := hops f (by simp)
    have hrest : ∀ g ∈ rest, g ≠ Ready.READY := fun g hg => hops g (by simp [hg])
    have hrun : Ready.runSteps (f :: rest) s = Ready.runSteps rest (Ready.step f s).2 := rfl
    by_cases he : s = f
    · have hf2 : f + 1 ≤ 2 := by
        have : f ≠ 2 := by simpa [Ready.READY] using hf
        omega
      have hstep : (Ready.step f s).2 = f + 1 := by
        simp [Ready.step, Ready.forward, Ready.u8Add, he, Nat.mod_eq_of_lt (by omega : f + 1 < 256)]
      obtain ⟨h1, h2⟩ := ih hf2 hrest
      rw [hrun, hstep]
      exact ⟨by omega, h2⟩
    · have hstep : (Ready.step f s).2 = s := by
        simp [Ready.step, Ready.forward, he]
      rw [hrun, hstep]
      exact ih hs hrest

/-! ### The claims -/

/-- C2: on a fresh cell, `set(1)` returns a reference to `1` and
moves the cell to READY with `1` stored; a subsequent `set(2)` on
that cell returns `None` and leaves it unchanged; `get()` then
returns a reference to the first stored value `1`, not `2`. -/
theorem scenario_set_set_get :
    OnceCell.set 1 (OnceCell.new Nat) = .ret (some 1) ⟨some 1, 2⟩ ∧
    OnceCell.set 2 (⟨some 1, 2⟩ : CellState Nat) = .ret none ⟨some 1, 2⟩ ∧
    OnceCell.get (⟨some 1, 2⟩ : CellState Nat) = some 1 := by
  decide

/-- C5: `do_or_get(f)` is definitionally `set_or_get(f())`; with an
effectful closure (state monad over `σ`), the closure is forced
exactly once, before the cell is touched, and its effect happens
whether or not the caller wins the race. -/
theorem doOrGet_eq_setOrGet {T σ : Type} (f : Unit → T) (g : σ → T × σ)
    (st : σ) (c : CellState T) :
    OnceCell.doOrGet f c = OnceCell.setOrGet (f ()) c ∧
    OnceCell.doOrGetEff g st c = (OnceCell.setOrGet (g st).1 c, (g st).2) :=
  ⟨rfl, rfl⟩

/-- C8: on a fresh `SpinLock`, `try_lock()` returns true; a second
`try_lock()` before `unlock()` returns false; after `unlock()`,
`try_lock()` succeeds again.  In general `try_lock` reports success
exactly when the previous value was unlocked (it returns the negated
previous value and leaves the lock set), and `unlock` resets the
lock to unlocked. -/
theorem spinlock_scenario :
    SpinLock.tryLock SpinLock.new = (true, true) ∧
    SpinLock.tryLock true = (false, true) ∧
    SpinLock.unlock true = false ∧
    SpinLock.tryLock (SpinLock.unlock true) = (true, true) ∧
    (∀ l, (SpinLock.tryLock l).1 = !l ∧ (SpinLock.tryLock l).2 = true ∧
      SpinLock.unlock l = false) :=
  ⟨rfl, rfl, rfl, rfl, fun _ => ⟨rfl, rfl, rfl⟩⟩

/-- C10: `Ready::step(from)` computes the target as `from + 1` with
u8 arithmetic and does not restrict `from` to the documented states:
for every `from ≤ 254` equal to the current state the step succeeds
and moves the state to `from + 1` — including `step(READY)`, which
moves the state to 3 — and for `from = 255` the addition `from + 1`
overflows the u8 range. -/
theorem step_unrestricted :
    (∀ frm s, frm ≤ 254 → s = frm → Ready.step frm s = (true, frm + 1)) ∧
    Ready.step Ready.READY Ready.READY = (true, 3) ∧
    Ready.u8AddOverflows 255 1 := by
  refine ⟨?_, by decide, by simp [Ready.u8AddOverflows]⟩
  intro frm s h hs
  subst hs
  have hlt : s + 1 < 256 := by omega
  simp [Ready.step, Ready.forward, Ready.u8Add, Nat.mod_eq_of_lt hlt]

/-- Witness for C10: `step(7)` on state 7 succeeds and moves the
state to 8, even though 7 is far outside the documented states. -/
theorem step_unrestricted_witness :
    Ready.step 7 7 = (true, 8) :=
  step_unrestricted.1 7 7 (by decide) rfl

/-- C1: `set(value)` — if the cell is already READY, the value is
discarded and absence is returned with the cell unchanged; if the
caller wins the NOT_READY→IN_TRANSIT transition (state 0), it writes
the slot, completes IN_TRANSIT→READY and returns a reference to the
stored value; if it loses the initial race it returns absence
without touching the slot.  A reference is returned iff the call
performed the initialization, and an absent result always leaves the
cell unchanged. -/
theorem set_spec {T : Type} (v : T) (c : CellState T) :
    (Ready.is c.init = true → OnceCell.set v c = .ret none c) ∧
    (c.init = Ready.NOT_READY →
      OnceCell.set v c = .ret (some v) ⟨some v, Ready.READY⟩) ∧
    (c.init ≠ Ready.NOT_READY → Ready.is c.init = false →
      OnceCell.set v c = .ret none c) ∧
    (∀ r s, OnceCell.set v c = .ret r s →
      ((r.isSome = true) ↔ c.init = Ready.NOT_READY) ∧ (r = none → s = c)) := by
  have hready : ∀ h : Ready.is c.init = true, OnceCell.set v c = .ret none c := by
    intro h
    simp [OnceCell.set, h]
  have hwin : ∀ h : c.init = Ready.NOT_READY,
      OnceCell.set v c = .ret (some v) ⟨some v, Ready.READY⟩ := by
    intro h
    simp [OnceCell.set, Ready.is, Ready.step, Ready.forward, Ready.u8Add,
      Ready.NOT_READY, Ready.IN_TRANSIT, Ready.READY, OnceCell.getUnchecked, h]
  have hlose : ∀ _ : c.init ≠ Ready.NOT_READY, ∀ _ : Ready.is c.init = false,
      OnceCell.set v c = .ret none c := by
    intro h h2
    have h0 : ¬(c.init = 0) := by simpa [Ready.NOT_READY] using h
    simp [OnceCell.set, Ready.step, Ready.forward, Ready.u8Add, Ready.NOT_READY, h0, h2]
  refine ⟨hready, hwin, fun h h2 => hlose h h2, ?_⟩
  intro r s hr
  by_cases h : Ready.is c.init = true
  · rw [hready h] at hr
    obtain ⟨hr1, hr2⟩ := (SetResult.ret.injEq ..).mp hr.symm
    have hne : c.init ≠ Ready.NOT_READY := by
      simp [Ready.is, Ready.READY, Ready.NOT_READY] at h ⊢
      omega
    simp [hr1, hr2, hne]
  · by_cases h2 : c.init = Ready.NOT_READY
    · rw [hwin h2] at hr
      obtain ⟨hr1, hr2⟩ := (SetResult.ret.injEq ..).mp hr.symm
      simp [hr1, h2]
    · rw [hlose h2 (by simpa using h)] at hr
      obtain ⟨hr1, hr2⟩ := (SetResult.ret.injEq ..).mp hr.symm
      simp [hr1, hr2, h2]

/-- Witness for C1: the three branches of `set` evaluated at
concrete cells — a fresh cell (the caller initializes), a READY cell
(value discarded, cell unchanged) and an IN_TRANSIT cell (race lost,
cell unchanged). -/
theorem set_spec_witness :
    OnceCell.set 5 (⟨none, 0⟩ : CellState Nat) = .ret (some 5) ⟨some 5, 2⟩ ∧
    OnceCell.set 7 (⟨some 1, 2⟩ : CellState Nat) = .ret none ⟨some 1, 2⟩ ∧
    OnceCell.set 9 (⟨none, 1⟩ : CellState Nat) = .ret none ⟨none, 1⟩ :=
  ⟨(set_spec 5 _).2.1 rfl, (set_spec 7 _).1 (by decide),
   (set_spec 9 _).2.2.1 (by decide) (by decide)⟩

/-- C4: `set_or_get(value)` first calls `set(value)`; a reference
produced by `set` is returned as is (so on a fresh cell the result
is a reference to the supplied value); on an already-READY cell the
result is a reference to the previously stored slot value and the
supplied value is discarded; while another caller is mid-transit the
call busy-waits on `is()` (which, against an unchanging state, means
it spins). -/
theorem setOrGet_spec {T : Type} (v : T) (c : CellState T) :
    (∀ r s, OnceCell.set v c = .ret (some r) s →
      OnceCell.setOrGet v c = .ret (some r) s) ∧
    (c.init = Ready.NOT_READY →
      OnceCell.setOrGet v c = .ret (some v) ⟨some v, Ready.READY⟩) ∧
    (c.init = Ready.READY → OnceCell.setOrGet v c = .ret c.value c) ∧
    (c.init = Ready.IN_TRANSIT → OnceCell.setOrGet v c = .spin) := by
  refine ⟨?_, ?_, ?_, ?_⟩
  · intro r s h
    simp [OnceCell.setOrGet, h]
  · intro h
    have := (set_spec v c).2.1 h
    simp [OnceCell.setOrGet, this]
  · intro h
    have hready : Ready.is c.init = true := by simp [Ready.is, h]
    have := (set_spec v c).1 hready
    simp [OnceCell.setOrGet, this, hready, OnceCell.getUnchecked]
  · intro h
    have hready : Ready.is c.init = false := by simp [Ready.is, Ready.READY, h, Ready.IN_TRANSIT]
    have hne : c.init ≠ Ready.NOT_READY := by simp [h, Ready.IN_TRANSIT, Ready.NOT_READY]
    have := (set_spec v c).2.2.1 hne hready
    simp [OnceCell.setOrGet, this, hready]

/-- Witness for C4: `set_or_get` evaluated on a fresh cell (returns
the supplied value), a READY cell holding 3 (returns 3, discards 9)
and an IN_TRANSIT cell (spins). -/
theorem setOrGet_spec_witness :
    OnceCell.setOrGet 4 (⟨none, 0⟩ : CellState Nat) = .ret (some 4) ⟨some 4, 2⟩ ∧
    OnceCell.setOrGet 9 (⟨some 3, 2⟩ : CellState Nat) = .ret (some 3) ⟨some 3, 2⟩ ∧
    OnceCell.setOrGet 6 (⟨none, 1⟩ : CellState Nat) = .spin :=
  ⟨(setOrGet_spec 4 _).2.1 rfl, (setOrGet_spec 9 _).2.2.1 rfl,
   (setOrGet_spec 6 _).2.2.2 rfl⟩

/-- Counterexample for C3: the claim quantifies over every sequence
of operations on a `Ready`, but `step` does not restrict its
argument, so after reaching READY (where `is()` is true) the further
operation `step(READY)` succeeds, moves the state to 3, and `is()`
reverts to false — READY is not terminal under arbitrary `step`
calls. -/
theorem ready_terminal_cex :
    Ready.step 0 Ready.new = (true, 1) ∧
    Ready.step 1 1 = (true, 2) ∧
    Ready.is 2 = true ∧
    Ready.step Ready.READY 2 = (true, 3) ∧
    Ready.is 3 = false := by
  decide

/-- C3 (amended): for every sequence of `step` calls whose `from`
argument is never READY — in particular for the documented protocol
transitions `step(NOT_READY)` and `step(IN_TRANSIT)` — starting from
any state in {0,1,2}, the state stays in {0,1,2} and only moves
forward, and once `is()` is true it remains true for the rest of the
sequence (READY is terminal). -/
theorem ready_monotone (ops : List Nat)
    (hops : ∀ f ∈ ops, f ≠ Ready.READY) (s : Nat) (hs : s ≤ 2) :
    (s ≤ Ready.runSteps ops s ∧ Ready.runSteps ops s ≤ 2) ∧
    (Ready.is s = true → Ready.is (Ready.runSteps ops s) = true) := by
  refine ⟨runSteps_mono hs ops hops, ?_⟩
  intro his
  have h2 : s = 2 := by simpa [Ready.is, Ready.READY] using his
  subst h2
  have hterm : Ready.runSteps ops 2 = 2 := by
    induction ops with
    | nil => rfl
    | cons f rest ih =>
      have hf : f ≠ Ready.READY := hops f (by simp)
      have hne : (2 : Nat) ≠ f := fun h => hf (by simp [Ready.READY, ← h])
      have hstep : (Ready.step f 2).2 = 2 := by
        simp [Ready.step, Ready.forward, hne]
      have hrun : Ready.runSteps (f :: rest) 2 = Ready.runSteps rest (Ready.step f 2).2 := rfl
      rw [hrun, hstep]
      exact ih fun g hg => hops g (by simp [hg])
    -- (the inner induction reuses only the tail of hops)
  simp [hterm, Ready.is, Ready.READY]

/-- Witness for C3 (amended): the protocol sequence
`step(0); step(1); step(0)` on a fresh flag keeps the state within
{0,1,2} and only moves it forward. -/
theorem ready_monotone_witness :
    0 ≤ Ready.runSteps [0, 1, 0] 0 ∧ Ready.runSteps [0, 1, 0] 0 ≤ 2 :=
  (ready_monotone [0, 1, 0] (by decide) 0 (by decide)).1

/-- C7: on a fresh `Ready`, across `k ≥ 1` repeated `step(0)` calls
exactly the first returns true and the state settles at 1; then
across `m ≥ 1` repeated `step(1)` calls exactly the first returns
true and the state settles at 2; `is()` is false on states 0 and 1
(before the successful `step(1)`) and true on state 2 (after it). -/
theorem ready_step_scenario (k m : Nat) (hk : 1 ≤ k) (hm : 1 ≤ m) :
    Ready.stepsTrace 0 k Ready.new = (true :: List.replicate (k - 1) false, 1) ∧
    (Ready.stepsTrace 0 k Ready.new).1.count true = 1 ∧
    Ready.stepsTrace 1 m 1 = (true :: List.replicate (m - 1) false, 2) ∧
    (Ready.stepsTrace 1 m 1).1.count true = 1 ∧
    Ready.is Ready.new = false ∧ Ready.is 1 = false ∧ Ready.is 2 = true := by
  obtain ⟨k', rfl⟩ : ∃ k', k = k' + 1 := ⟨k - 1, by omega⟩
  obtain ⟨m', rfl⟩ : ∃ m', m = m' + 1 := ⟨m - 1, by omega⟩
  have h0 : Ready.stepsTrace 0 (k' + 1) Ready.new =
      (true :: List.replicate k' false, 1) := by
    have hfail := stepsTrace_fail (show (1 : Nat) ≠ 0 by decide) k'
    simp [Ready.stepsTrace, Ready.step, Ready.forward, Ready.u8Add, Ready.new, hfail]
  have h1 : Ready.stepsTrace 1 (m' + 1) 1 =
      (true :: List.replicate m' false, 2) := by
    have hfail := stepsTrace_fail (show (2 : Nat) ≠ 1 by decide) m'
    simp [Ready.stepsTrace, Ready.step, Ready.forward, Ready.u8Add, hfail]
  refine ⟨by simpa using h0, ?_, by simpa using h1, ?_, by decide, by decide, by decide⟩
  · rw [h0]
    simp [List.count_cons, List.count_replicate]
  · rw [h1]
    simp [List.count_cons, List.count_replicate]

/-- Witness for C7: three `step(0)` calls then two `step(1)` calls,
each returning true exactly once. -/
theorem ready_step_scenario_witness :
    (Ready.stepsTrace 0 3 Ready.new).1.count true = 1 ∧
    (Ready.stepsTrace 1 2 1).1.count true = 1 :=
  ⟨(ready_step_scenario 3 2 (by decide) (by decide)).2.1,
   (ready_step_scenario 3 2 (by decide) (by decide)).2.2.2.1⟩

/-- C6: in every configuration reachable by interleaving `set` calls
on a fresh cell (i.e. whenever the `Ready` flag is mutated only
through `OnceCell`'s documented operations), no thread ever reaches
the `unreachable!()` abort, and a thread that won `step(NOT_READY)`
and wrote the slot always succeeds at its `step(IN_TRANSIT)` — its
next step returns `Some`, never the abort. -/
theorem set_no_abort {T : Type} {vs : List T} {c : Config T}
    (h : Reachable vs c) :
    (∀ t ∈ c.2, t.phase ≠ Phase.aborted) ∧
    (∀ t ∈ c.2, t.phase = Phase.finish2 →
      (threadStep c.1 t).2.phase = Phase.doneSome) := by
  have hinv := (reachable_inv h).1
  constructor
  · rcases hinv with ⟨_, _, hp⟩ | ⟨_, _, hnwa, _, _⟩ | ⟨_, _, _, hnab, _⟩
    · exact fun t ht => not_aborted_of_pending (hp t ht)
    · exact fun t ht => (hnwa t ht).2
    · exact fun t ht => hnab t ht
  · intro t ht hf
    rcases hinv with ⟨_, _, hp⟩ | ⟨h1, _, _, _, _⟩ | ⟨_, hown, _, _, _⟩
    · have := hp t ht
      simp [isPending, hf] at this
    · simp [threadStep, hf, Ready.step, Ready.forward, Ready.u8Add,
        Ready.IN_TRANSIT, h1]
    · have := List.countP_eq_zero.mp hown t ht
      simp [isOwner, hf] at this

/-- Witness for C6: the initial configuration of a single `set(3)`
caller is reachable, and its thread is not aborted. -/
theorem set_no_abort_witness :
    (⟨Phase.start, (3 : Nat)⟩ : Thr Nat).phase ≠ Phase.aborted :=
  (@set_no_abort Nat [3] (initialConfig [3]) Relation.ReflTransGen.refl).1
    ⟨Phase.start, 3⟩ (by decide)

/-- C9: for every interleaving of concurrent `set(v)` calls on one
fresh cell that has run to completion, exactly one caller returns a
reference (performed the initialization), no caller aborts, and the
stored value — the one observable through `get()` — is exactly the
winning caller's supplied value, hence one of the supplied values
and never a torn or mixed one; every other supplied value is
discarded. -/
theorem set_unique_winner {T : Type} (vs : List T) (sh : CellState T)
    (ts : List (Thr T)) (hreach : Reachable vs (sh, ts))
    (hdone : ∀ t ∈ ts, isDone t = true) (hne : vs ≠ []) :
    ts.countP isWinner = 1 ∧
    (∀ t ∈ ts, t.phase ≠ Phase.aborted) ∧
    (∃ t ∈ ts, isWinner t = true ∧ sh.value = some t.val ∧ t.val ∈ vs ∧
      OnceCell.get sh = some t.val) := by
  obtain ⟨hinv, hvals⟩ := reachable_inv hreach
  dsimp only at hinv hvals
  rcases hinv with ⟨h0, hv, hp⟩ | ⟨h1, hown, hnwa, hf2, hwr⟩ |
    ⟨h2, hown, hwin, hnab, hwv⟩
  · -- init = 0 is impossible once every thread has returned
    exfalso
    have hts : ts ≠ [] := by
      intro hnil
      rw [hnil] at hvals
      exact hne hvals.symm
    obtain ⟨t, ht⟩ := List.exists_mem_of_ne_nil ts hts
    have := not_done_of_pending (hp t ht)
    rw [hdone t ht] at this
    cases this
  · -- init = 1 is impossible: the unique owner has not returned
    exfalso
    obtain ⟨t, ht, hO⟩ := exists_mem_of_countP_pos
      (show ts.countP isOwner ≠ 0 by omega)
    have := not_done_of_owner hO
    rw [hdone t ht] at this
    cases this
  · -- init = 2: exactly one winner, its value is stored and observable
    refine ⟨hwin, hnab, ?_⟩
    obtain ⟨t, ht, hW⟩ := exists_mem_of_countP_pos
      (show ts.countP isWinner ≠ 0 by omega)
    have hval := hwv t ht hW
    refine ⟨t, ht, hW, hval, ?_, ?_⟩
    · rw [← hvals]
      exact List.mem_map_of_mem Thr.val ht
    · simp [OnceCell.get, Ready.is, Ready.READY, h2, OnceCell.getUnchecked, hval]

/-- Witness for C9: two callers `set(5)` and `set(7)`; the schedule
where the first runs to completion and then the second observes
READY ends with exactly one winner. -/
theorem set_unique_winner_witness :
    List.countP isWinner
      [(⟨Phase.doneSome, 5⟩ : Thr Nat), ⟨Phase.doneNone, 7⟩] = 1 := by
  have s1 : Step (initialConfig [(5 : Nat), 7])
      (⟨none, 0⟩, [⟨Phase.cas1, 5⟩, ⟨Phase.start, 7⟩]) :=
    Step.here (by decide)
  have s2 : Step ((⟨none, 0⟩ : CellState Nat), [⟨Phase.cas1, 5⟩, ⟨Phase.start, 7⟩])
      (⟨none, 1⟩, [⟨Phase.write, 5⟩, ⟨Phase.start, 7⟩]) :=
    Step.here (by decide)
  have s3 : Step ((⟨none, 1⟩ : CellState Nat), [⟨Phase.write, 5⟩, ⟨Phase.start, 7⟩])
      (⟨some 5, 1⟩, [⟨Phase.finish2, 5⟩, ⟨Phase.start, 7⟩]) :=
    Step.here (by decide)
  have s4 : Step ((⟨some 5, 1⟩ : CellState Nat), [⟨Phase.finish2, 5⟩, ⟨Phase.start, 7⟩])
      (⟨some 5, 2⟩, [⟨Phase.doneSome, 5⟩, ⟨Phase.start, 7⟩]) :=
    Step.here (by decide)
  have s5 : Step ((⟨some 5, 2⟩ : CellState Nat), [⟨Phase.doneSome, 5⟩, ⟨Phase.start, 7⟩])
      (⟨some 5, 2⟩, [⟨Phase.doneSome, 5⟩, ⟨Phase.doneNone, 7⟩]) :=
    Step.there (Step.here (by decide))
  have hreach : Reachable [(5 : Nat), 7]
      (⟨some 5, 2⟩, [⟨Phase.doneSome, 5⟩, ⟨Phase.doneNone, 7⟩]) :=
    Relation.ReflTransGen.tail
      (Relation.ReflTransGen.tail
        (Relation.ReflTransGen.tail
          (Relation.ReflTransGen.tail
            (Relation.ReflTransGen.tail Relation.ReflTransGen.refl s1) s2) s3) s4) s5
  exact (set_unique_winner [5, 7] ⟨some 5, 2⟩
    [⟨Phase.doneSome, 5⟩, ⟨Phase.doneNone, 7⟩] hreach (by decide) (by decide)).1

end CortexMSync
